import Mathlib

/-!
Verification of the version-resolution and compatibility-classification
engine of the angular-dependency-analyzer repository.

The engine lives in two services:
  * NpmRegistryService (src/app/components/services/npm-registry.ts):
    version comparison, pre-release classification, peer-dependency
    evaluation, framework-core and ecosystem version resolution;
  * DependencyAnalyzerService: per-dependency analysis, risk and notes
    assignment, manifest rewriting, summary aggregation.

The TypeScript code is shallowly embedded: JavaScript strings become Lean
String (with the logic carried out on Char lists), JavaScript numbers
arising from parseInt and Number coercion become Int (NaN is modelled by
Option.none where it can flow, and by the 0 the code itself coerces it to
where the code applies the JS "|| 0" idiom), objects become structures,
and association order of object keys becomes list order.
-/

namespace DepAnalyzer

/-! ## JS string and number primitives used by the services -/

/-- The whitespace characters JS parseInt and Number skip (StrWhiteSpace;
the common ASCII subset, which is all that occurs in version strings). -/
def jsWhitespace (c : Char) : Bool :=
  c = ' ' || c = '\t' || c = '\n' || c = '\r' || c = '\x0b' || c = '\x0c'

/-- Value of a run of decimal digit characters. -/
def digitsVal (cs : List Char) : Nat :=
  cs.foldl (fun n c => n * 10 + (c.toNat - 48)) 0

/-- The longest leading run of decimal digits, as a number; none when the
run is empty (parseInt would yield NaN). -/
def leadingDigits (cs : List Char) : Option Nat :=
  let ds := cs.takeWhile Char.isDigit
  if ds = [] then none else some (digitsVal ds)

/-- JS parseInt(s, 10): skip leading whitespace, read an optional sign and
then the longest run of decimal digits; none models NaN. -/
def parseIntCore (cs : List Char) : Option Int :=
  match cs.dropWhile jsWhitespace with
  | [] => none
  | c :: rest =>
    if c = '+' then (leadingDigits rest).map (fun n => (n : Int))
    else if c = '-' then (leadingDigits rest).map (fun n => -(n : Int))
    else (leadingDigits (c :: rest)).map (fun n => (n : Int))

/-- The "parseInt(p, 10) || 0" idiom of NpmRegistryService.compareVersions:
NaN (and -0) coerce to 0. -/
def parseIntOr0 (s : String) : Int :=
  (parseIntCore s.toList).getD 0

/-- Drop JS whitespace from both ends of a character list (JS trim). -/
def jsTrimList (cs : List Char) : List Char :=
  ((cs.dropWhile jsWhitespace).reverse.dropWhile jsWhitespace).reverse

/-- JS Number(s) for the dot-free version components this engine feeds it:
whitespace is trimmed, the empty string is 0, an optional sign followed by
a pure run of decimal digits is its signed value, and anything else is
NaN, modelled as none. The remaining JS numeric syntaxes (exponent, hex,
octal, binary, Infinity) cannot arise from the dot-separated components of
a version string and are subsumed under the NaN branch of the model. -/
def jsNumberCore (cs : List Char) : Option Int :=
  match jsTrimList cs with
  | [] => some 0
  | c :: rest =>
    if c = '+' then
      if rest ≠ [] ∧ rest.all Char.isDigit then some (digitsVal rest) else none
    else if c = '-' then
      if rest ≠ [] ∧ rest.all Char.isDigit then some (-(digitsVal rest : Int)) else none
    else
      if (c :: rest).all Char.isDigit then some (digitsVal (c :: rest)) else none

/-- The "parts1[i] || 0" access in DependencyAnalyzerService.compareVersions
applied to Number-coerced components: NaN (and -0) coerce to 0. -/
def numberOr0 (s : String) : Int :=
  (jsNumberCore s.toList).getD 0

/-- JS "v.split(String.fromCharCode 46)": split a character list at every dot, keeping empty
segments ("".split gives [""]). -/
def splitDots (cs : List Char) : List (List Char) :=
  match cs with
  | [] => [[]]
  | c :: rest =>
    if c = '.' then [] :: splitDots rest
    else
      match splitDots rest with
      | [] => [[c]]
      | s :: ss => (c :: s) :: ss

/-- JS "s.split(two pipes)" used by the peer-dependency evaluator: split at
every non-overlapping, leftmost occurrence of two consecutive pipes. -/
def splitPipesAux (acc : List Char) : List Char → List (List Char)
  | '|' :: '|' :: rest => acc.reverse :: splitPipesAux [] rest
  | c :: rest => splitPipesAux (c :: acc) rest
  | [] => [acc.reverse]

def splitPipes (cs : List Char) : List (List Char) :=
  splitPipesAux [] cs

/-- Substring containment, modelling JS String.prototype.includes. -/
def strContains (s pat : String) : Bool :=
  decide (pat.toList <:+: s.toList)

/-! ## The version comparator shared in shape by both services

Both compareVersions functions split on dots, coerce every component to a
number, and walk the component arrays up to the longer length with missing
slots read as 0; the first unequal pair decides. The walk is captured by
`cmpParts` over the already-coerced component lists; the two services
differ only in the coercion (parseInt versus Number). -/

/-- The tail of the compareVersions loop once the left component array is
exhausted: each remaining right component is compared against 0. -/
def cmpZero : List Int → Int
  | [] => 0
  | b :: bs => if 0 < b then -1 else if b < 0 then 1 else cmpZero bs

/-- Componentwise comparison of two coerced component lists, missing
components read as 0: the loop body of compareVersions. -/
def cmpParts : List Int → List Int → Int
  | [], bs => cmpZero bs
  | a :: as, [] => if a < 0 then -1 else if 0 < a then 1 else cmpParts as []
  | a :: as, b :: bs => if a < b then -1 else if b < a then 1 else cmpParts as bs

/-- Component list of NpmRegistryService.compareVersions:
v.split(dot).map(p => parseInt(p, 10) || 0). -/
def npmParts (v : String) : List Int :=
  (splitDots v.toList).map (fun cs => (parseIntCore cs).getD 0)

/-- Component list of DependencyAnalyzerService.compareVersions:
v.split(dot).map(Number), with NaN read as 0 at access time. -/
def analyzerParts (v : String) : List Int :=
  (splitDots v.toList).map (fun cs => (jsNumberCore cs).getD 0)

/-- NpmRegistryService.compareVersions. -/
def npmCompareVersions (v1 v2 : String) : Int :=
  cmpParts (npmParts v1) (npmParts v2)

/-- DependencyAnalyzerService.compareVersions. -/
def analyzerCompareVersions (v1 v2 : String) : Int :=
  cmpParts (analyzerParts v1) (analyzerParts v2)

/-! ## Version string utilities of NpmRegistryService -/

/-- cleanVersion: remove every caret, tilde, greater, equal and less
character (the regex [caret tilde greater equal less] with flag g). -/
def cleanVersion (version : String) : String :=
  String.mk (version.toList.filter
    (fun c => !(c = '^' || c = '~' || c = '>' || c = '=' || c = '<')))

/-- isPreReleaseVersion: case-insensitive substring match against the fixed
keyword set. -/
def isPreReleaseVersion (version : String) : Bool :=
  let lower := String.mk (version.toList.map Char.toLower)
  ["canary", "beta", "rc", "alpha", "next", "dev",
   "snapshot", "preview", "experimental"].any
    (fun pat => strContains lower pat)

/-- A stable (non pre-release) version. -/
def isStable (v : String) : Bool :=
  !isPreReleaseVersion v

/-- parseInt(v.split(dot)[0], 10): the major component of a version string,
none when parseInt yields NaN. -/
def majorOf (v : String) : Option Int :=
  parseIntCore ((splitDots v.toList).headD [])

/-- One insertion step of the descending insertion sort modelling
versions.sort((a, b) => compareVersions(b, a)). -/
def insertDesc (x : String) : List String → List String
  | [] => [x]
  | y :: ys => if 0 ≤ npmCompareVersions x y then x :: y :: ys else y :: insertDesc x ys

/-- sortVersionsDescending: sort latest first under compareVersions. -/
def sortVersionsDescending (versions : List String) : List String :=
  versions.foldr insertDesc []

/-! ## Package identity tests -/

/-- The framework-core name test of both services: starts with the Angular
scope and is not a material or cdk package. -/
def isAngularCoreName (name : String) : Bool :=
  "@angular/".toList.isPrefixOf name.toList
    && !strContains name "material" && !strContains name "cdk"

/-- DependencyAnalyzerService.isAngularEcosystemPackage. -/
def isAngularEcosystemPackage (name : String) : Bool :=
  "ng-".toList.isPrefixOf name.toList
    || "ngx-".toList.isPrefixOf name.toList
    || "@ng-".toList.isPrefixOf name.toList
    || strContains name "@angular/material"
    || strContains name "@angular/cdk"
    || strContains name "@ngrx/"

/-! ## Registry metadata model -/

/-- Association-list lookup modelling JS object property access (objects
have unique keys; first match). -/
def lookupA (l : List (String × String)) (k : String) : Option String :=
  (l.find? (fun p => p.1 = k)).map (fun p => p.2)

/-- The fields of one version record the engine reads. -/
structure VersionData where
  peerDependencies : Option (List (String × String))
deriving DecidableEq, Repr

/-- NpmPackageInfo as the core consumes it: the versions map (association
order models JS key order), and the latest dist-tag (none models a missing
property; the unused time map is omitted). -/
structure NpmPackageInfo where
  name : String
  versions : List (String × VersionData)
  distTagsLatest : Option String
deriving DecidableEq, Repr

/-! ## NpmRegistryService: peer-dependency evaluation and resolution

The service receives the target Angular version as a numeric string and
parses it once with parseInt; the embedding takes the parsed integer
directly (the claims quantify over integer target majors, for which the
two presentations agree, including the synthesized fallback string). -/

/-- The first run of digits anywhere in a pattern (the regex match of one
digit group), as parseInt reads it. -/
def firstDigitRun (cs : List Char) : Option Nat :=
  let tail := cs.dropWhile (fun c => !c.isDigit)
  match tail with
  | [] => none
  | _ => some (digitsVal (tail.takeWhile Char.isDigit))

/-- versionSatisfiesPeerDep: split the constraint on two-pipe separators,
trim each alternative, and accept when some alternative accepts; an
alternative with no digits is skipped, a greater-equal alternative needs
target at least the constraint major, a caret or tilde alternative needs
target equal to it, and an unmarked alternative never accepts. -/
def versionSatisfiesPeerDep (targetMajor : Int) (peerDepConstraint : String) : Bool :=
  let patterns := (splitPipes peerDepConstraint.toList).map jsTrimList
  patterns.any (fun pattern =>
    match firstDigitRun pattern with
    | none => false
    | some constraintMajor =>
      if ['>', '='] <:+: pattern then decide ((constraintMajor : Int) ≤ targetMajor)
      else if '^' ∈ pattern then decide (targetMajor = (constraintMajor : Int))
      else if '~' ∈ pattern then decide (targetMajor = (constraintMajor : Int))
      else false)

/-- findVersionsCompatibleWithAngular: walk the versions map in order; skip
pre-releases unless included; a version with no peerDependencies object, or
none recorded for the Angular core package (the JS falsy test also admits
an empty constraint string), is compatible; otherwise the peer constraint
must accept the target major. -/
def findVersionsCompatibleWithAngular (info : NpmPackageInfo) (targetMajor : Int)
    (includePreRelease : Bool) : List String :=
  info.versions.filterMap (fun p =>
    if !includePreRelease && isPreReleaseVersion p.1 then none
    else
      match p.2.peerDependencies with
      | none => some p.1
      | some peerDeps =>
        match lookupA peerDeps "@angular/core" with
        | none => some p.1
        | some angularPeer =>
          if angularPeer = "" then some p.1
          else if versionSatisfiesPeerDep targetMajor angularPeer then some p.1
          else none)

/-- The candidate pool of findBestAngularVersion: versions whose parsed
major equals the target, narrowed to its stable members when the current
version is not a pre-release and the narrowing keeps anything. -/
def angularTargetPool (versions : List String) (targetMajor : Int)
    (currentVersion : String) : List String :=
  let targetMajorVersions := versions.filter (fun v => decide (majorOf v = some targetMajor))
  if !isPreReleaseVersion currentVersion then
    let stableVersions := targetMajorVersions.filter isStable
    if stableVersions.length > 0 then stableVersions else targetMajorVersions
  else targetMajorVersions

/-- findBestAngularVersion: best version of a framework-core package for
the target major; called with the already cleaned current version. -/
def findBestAngularVersion (versions : List String) (targetMajor : Int)
    (currentVersion : String) : String :=
  let pool := angularTargetPool versions targetMajor currentVersion
  if pool.length > 0 then (sortVersionsDescending pool).headD ""
  else if (match majorOf currentVersion with
           | some m => decide (targetMajor < m)
           | none => false) then currentVersion
  else toString targetMajor ++ ".0.0"

/-- getBestVersion: the resolution entry point; none models the null the
service returns when the metadata fetch failed. -/
def getBestVersion (packageName : String) (info : Option NpmPackageInfo)
    (targetMajor : Int) (currentVersion : String) : Option String :=
  match info with
  | none => none
  | some info =>
    let versions := info.versions.map (fun p => p.1)
    let cleanCurrent := cleanVersion currentVersion
    let isCurrentPreRelease := isPreReleaseVersion cleanCurrent
    if isAngularCoreName packageName then
      some (findBestAngularVersion versions targetMajor cleanCurrent)
    else
      let compatibleVersions :=
        findVersionsCompatibleWithAngular info targetMajor isCurrentPreRelease
      match (if compatibleVersions.length > 0 then
               (sortVersionsDescending compatibleVersions).find?
                 (fun v => decide (0 ≤ npmCompareVersions v cleanCurrent))
             else none) with
      | some v => some v
      | none =>
        let latest0 :=
          match info.distTagsLatest with
          | some s => if s = "" then cleanCurrent else s
          | none => cleanCurrent
        let latest :=
          if !isCurrentPreRelease && isPreReleaseVersion latest0 then
            let stableVersions := versions.filter isStable
            if stableVersions.length > 0 then
              (sortVersionsDescending stableVersions).headD latest0
            else latest0
          else latest0
        some (if 0 ≤ npmCompareVersions latest cleanCurrent then latest else cleanCurrent)

/-! ## DependencyAnalyzerService -/

inductive Risk where
  | low
  | medium
  | high
deriving DecidableEq, Repr

structure DependencyAnalysis where
  name : String
  currentVersion : String
  latestVersion : String
  recommendedVersion : String
  isAngularPackage : Bool
  needsUpdate : Bool
  risk : Risk
  notes : String
deriving DecidableEq, Repr

/-- PackageJson: the two dependency groups, the named scalar fields, and an
opaque association list for every other manifest field the analyzer only
passes through (its order models JS key order). -/
structure PackageJson where
  name : Option String
  version : Option String
  dependencies : Option (List (String × String))
  devDependencies : Option (List (String × String))
  extra : List (String × String)
deriving DecidableEq, Repr

structure AnalysisSummary where
  total : Nat
  needsUpdate : Nat
  lowRisk : Nat
  mediumRisk : Nat
  highRisk : Nat
deriving DecidableEq, Repr

structure AnalysisResult where
  original : PackageJson
  updated : PackageJson
  analysis : List DependencyAnalysis
  summary : AnalysisSummary
deriving DecidableEq, Repr

/-- analyzeDependency: resolve one dependency against its registry
metadata (none models the failed fetch the service degrades to null) and
build the analysis entry; the JS "bestVersion || cleanVersion" falsy test
also sends an empty best version to the cleaned current one. -/
def analyzeDependency (name currentVersion : String) (targetMajor : Int)
    (info : Option NpmPackageInfo) : DependencyAnalysis :=
  let cleanVer := cleanVersion currentVersion
  let bestVersion := getBestVersion name info targetMajor currentVersion
  let recommendedVersion :=
    match bestVersion with
    | none => cleanVer
    | some v => if v = "" then cleanVer else v
  let isAngular := isAngularCoreName name
  let risk := if isAngularEcosystemPackage name then Risk.medium else Risk.low
  let comparison := analyzerCompareVersions cleanVer recommendedVersion
  let notes :=
    if comparison < 0 then
      if isAngular then "Upgrade to match Angular " ++ toString targetMajor
      else if isAngularEcosystemPackage name then
        "Update available - verify compatibility with Angular " ++ toString targetMajor
      else "Update available"
    else if comparison = 0 then
      if isAngular then "Aligned with Angular " ++ toString targetMajor
      else "Up to date"
    else "Current version is newer"
  { name := name
    currentVersion := cleanVer
    latestVersion := recommendedVersion
    recommendedVersion := recommendedVersion
    isAngularPackage := isAngular
    needsUpdate := decide (comparison < 0)
    risk := risk
    notes := notes }

/-- JS object update m[k] = v: overwrite in place when the key is present,
append otherwise. -/
def objSet (m : List (String × String)) (k v : String) : List (String × String) :=
  if (lookupA m k).isSome then
    m.map (fun p => if p.1 = k then (k, v) else p)
  else m ++ [(k, v)]

/-- JS object spread of two maps: keys of the first in order with values
overridden by the second, then the new keys of the second. -/
def objSpread (a b : List (String × String)) : List (String × String) :=
  a.map (fun p => (p.1, (lookupA b p.1).getD p.2))
    ++ b.filter (fun p => lookupA a p.1 = none)

/-- The per-group rewriting loop of buildResult: walk the analyses and
record a caret constraint at the recommended version for every entry whose
name maps to a truthy (present, non-empty) constraint in the group. -/
def rewriteGroup (orig : List (String × String))
    (analyses : List DependencyAnalysis) : List (String × String) :=
  analyses.foldl (fun m a =>
    match lookupA orig a.name with
    | some c => if c = "" then m else objSet m a.name ("^" ++ a.recommendedVersion)
    | none => m) []

/-- One step of the rewrite fold, named for the proofs below. -/
def rewriteStep (orig : List (String × String)) (m : List (String × String))
    (a : DependencyAnalysis) : List (String × String) :=
  match lookupA orig a.name with
  | some c => if c = "" then m else objSet m a.name ("^" ++ a.recommendedVersion)
  | none => m

/-- buildResult: the updated manifest spreads the original and replaces a
dependency group by its rewrite when the rewrite is non-empty; the summary
folds the entry list. -/
def buildResult (original : PackageJson)
    (analyses : List DependencyAnalysis) : AnalysisResult :=
  let updatedDeps := rewriteGroup (original.dependencies.getD []) analyses
  let updatedDevDeps := rewriteGroup (original.devDependencies.getD []) analyses
  let updated : PackageJson :=
    { original with
      dependencies :=
        if updatedDeps.length > 0 then some updatedDeps else original.dependencies
      devDependencies :=
        if updatedDevDeps.length > 0 then some updatedDevDeps else original.devDependencies }
  { original := original
    updated := updated
    analysis := analyses
    summary :=
      { total := analyses.length
        needsUpdate := (analyses.filter (fun a => a.needsUpdate)).length
        lowRisk := (analyses.filter (fun a => decide (a.risk = Risk.low))).length
        mediumRisk := (analyses.filter (fun a => decide (a.risk = Risk.medium))).length
        highRisk := (analyses.filter (fun a => decide (a.risk = Risk.high))).length } }

/-- createEmptyResult for a manifest with no dependencies. -/
def createEmptyResult (packageJson : PackageJson) : AnalysisResult :=
  { original := packageJson
    updated := packageJson
    analysis := []
    summary := { total := 0, needsUpdate := 0, lowRisk := 0, mediumRisk := 0, highRisk := 0 } }

/-- analyze: merge the dependency groups (devDependencies override), fan
out one independent resolution per dependency against the registry
snapshot, and build the result; the rxjs fan-out and fan-in is modelled by
the pure map (lookups are independent and side-effect-free). -/
def analyze (packageJson : PackageJson) (targetMajor : Int)
    (registry : String → Option NpmPackageInfo) : AnalysisResult :=
  let allDeps := objSpread (packageJson.dependencies.getD [])
    (packageJson.devDependencies.getD [])
  if allDeps.length = 0 then createEmptyResult packageJson
  else
    buildResult packageJson
      (allDeps.map (fun p => analyzeDependency p.1 p.2 targetMajor (registry p.1)))

/-! ## Reference definitions written from the specification text

These are not part of the embedded program: each one renders a sentence of
the specification literally, to be compared against the embedded code. -/

/-- The component normalization the spec describes for the comparator:
"converts every component to an integer (non-numeric or missing components
treated as 0)" — a component that is not a pure numeral counts as 0. -/
def specComponentVal (cs : List Char) : Int :=
  if cs ≠ [] ∧ cs.all Char.isDigit then (digitsVal cs : Int) else 0

/-- The comparator exactly as the spec sentence describes it. -/
def specCompareVersions (a b : String) : Int :=
  cmpParts ((splitDots a.toList).map specComponentVal)
    ((splitDots b.toList).map specComponentVal)

/-- One alternative of a peer constraint as the claim describes it: with
first digit run m, it satisfies when it contains greater-equal and the
target is at least m, or contains a caret or tilde and the target equals
m; no digits or no marker never satisfies. -/
def patternAcceptsSpec (t : Int) (pattern : List Char) : Bool :=
  match firstDigitRun pattern with
  | none => false
  | some m =>
    decide ((['>', '='] <:+: pattern ∧ (m : Int) ≤ t) ∨
      (('^' ∈ pattern ∨ '~' ∈ pattern) ∧ t = (m : Int)))

/-- Candidate membership exactly as the claim states it: the version either
declares no peer dependency on the framework-core package, or declares one
that the evaluator confirms (an empty declared constraint falls in the
second case and is rejected by the evaluator). -/
def c3SpecCandidate (info : NpmPackageInfo) (t : Int) (incl : Bool) (v : String) : Bool :=
  info.versions.any (fun p =>
    decide (p.1 = v) &&
    (incl || !isPreReleaseVersion v) &&
    (match p.2.peerDependencies with
     | none => true
     | some peers =>
       match lookupA peers "@angular/core" with
       | none => true
       | some c => versionSatisfiesPeerDep t c))

/-! ## Concrete registry snapshots used to separate spec from code -/

/-- A framework-core package whose registry offers 18.0.0 while the target
major is 17: the resolver prefers the target major over the no-downgrade
rule. -/
def infoC1 : NpmPackageInfo :=
  { name := "@angular/core"
    versions := [("17.1.0", { peerDependencies := none }),
                 ("18.0.0", { peerDependencies := none })]
    distTagsLatest := some "18.0.0" }

/-- An ecosystem package declaring an empty peer constraint on the
framework core: JS falsiness admits it, the spec-described evaluator path
rejects it. -/
def infoC3 : NpmPackageInfo :=
  { name := "some-chart-lib"
    versions := [("1.0.0", { peerDependencies := some [("@angular/core", "")] })]
    distTagsLatest := some "1.0.0" }

/-- An ecosystem package whose only version fails the peer check, whose
latest dist-tag is a pre-release, and which still has a stable version. -/
def infoC4 : NpmPackageInfo :=
  { name := "some-lib"
    versions := [("2.0.0", { peerDependencies := some [("@angular/core", "^1.0.0")] })]
    distTagsLatest := some "3.0.0-beta.1" }

/-- An ecosystem package with one compatible stable version above the
current one. -/
def infoEco : NpmPackageInfo :=
  { name := "left-pad"
    versions := [("2.0.0", { peerDependencies := none })]
    distTagsLatest := some "2.0.0" }

/-- A manifest whose single dependency has the empty string as declared
constraint: the JS truthiness test skips its rewrite. -/
def origC9 : PackageJson :=
  { name := some "app"
    version := some "1.0.0"
    dependencies := some [("b", "")]
    devDependencies := none
    extra := [("license", "MIT")] }

/-! ## Order-theoretic facts about the componentwise comparator -/

theorem cmpZero_range (b : List Int) :
    cmpZero b = -1 ∨ cmpZero b = 0 ∨ cmpZero b = 1 := by
  induction b with
  | nil => simp [cmpZero]
  | cons y ys ih =>
    simp only [cmpZero]
    split_ifs <;> omega

theorem cmpZero_eq_zero_iff (b : List Int) :
    cmpZero b = 0 ↔ ∀ i, (0 : Int) = b.getD i 0 := by
  induction b with
  | nil => simp [cmpZero]
  | cons y ys ih =>
    simp only [cmpZero]
    split_ifs with h1 h2
    · constructor
      · intro hcontra
        exact absurd hcontra (by decide)
      · intro hall
        have h0 := hall 0
        simp only [List.getD_cons_zero] at h0
        omega
    · constructor
      · intro hcontra
        exact absurd hcontra (by decide)
      · intro hall
        have h0 := hall 0
        simp only [List.getD_cons_zero] at h0
        omega
    · have hy : y = 0 := by omega
      subst hy
      rw [ih]
      constructor
      · intro hall i
        cases i with
        | zero => simp
        | succ n => simpa using hall n
      · intro hall i
        have := hall (i + 1)
        simpa using this

theorem cmpZero_eq_negOne_iff (b : List Int) :
    cmpZero b = -1 ↔
      ∃ i, (0 : Int) < b.getD i 0 ∧ ∀ j < i, (0 : Int) = b.getD j 0 := by
  induction b with
  | nil =>
    simp [cmpZero]
  | cons y ys ih =>
    simp only [cmpZero]
    split_ifs with h1 h2
    · constructor
      · intro _
        exact ⟨0, by simpa using h1, by omega⟩
      · intro _
        rfl
    · constructor
      · intro hcontra
        exact absurd hcontra (by decide)
      · rintro ⟨i, hi, hb⟩
        cases i with
        | zero =>
          simp only [List.getD_cons_zero] at hi
          omega
        | succ n =>
          have h0 := hb 0 (Nat.succ_pos n)
          simp only [List.getD_cons_zero] at h0
          omega
    · have hy : y = 0 := by omega
      subst hy
      rw [ih]
      constructor
      · rintro ⟨i, hi, hb⟩
        refine ⟨i + 1, by simpa using hi, ?_⟩
        intro j hj
        cases j with
        | zero => simp
        | succ m => simpa using hb m (by omega)
      · rintro ⟨i, hi, hb⟩
        cases i with
        | zero =>
          simp only [List.getD_cons_zero] at hi
          omega
        | succ n =>
          refine ⟨n, by simpa using hi, ?_⟩
          intro j hj
          have := hb (j + 1) (by omega)
          simpa using this

theorem cmpParts_nil_right (b : List Int) : cmpParts b [] = -cmpZero b := by
  induction b with
  | nil => simp [cmpParts, cmpZero]
  | cons y ys ih =>
    simp only [cmpParts, cmpZero]
    split_ifs <;> omega

theorem cmpParts_refl (a : List Int) : cmpParts a a = 0 := by
  induction a with
  | nil => simp [cmpParts, cmpZero]
  | cons x xs ih => simp [cmpParts, ih]

theorem cmpParts_antisym (a : List Int) : ∀ b, cmpParts a b = -cmpParts b a := by
  induction a with
  | nil =>
    intro b
    have h := cmpParts_nil_right b
    have h2 : cmpParts [] b = cmpZero b := rfl
    omega
  | cons x xs ih =>
    intro b
    cases b with
    | nil =>
      have h := cmpParts_nil_right (x :: xs)
      have h2 : cmpParts [] (x :: xs) = cmpZero (x :: xs) := rfl
      omega
    | cons y ys =>
      have h2 := ih ys
      simp only [cmpParts]
      split_ifs <;> omega

theorem cmpParts_range (a : List Int) :
    ∀ b, cmpParts a b = -1 ∨ cmpParts a b = 0 ∨ cmpParts a b = 1 := by
  induction a with
  | nil =>
    intro b
    exact cmpZero_range b
  | cons x xs ih =>
    intro b
    cases b with
    | nil =>
      have h := ih []
      simp only [cmpParts]
      split_ifs <;> omega
    | cons y ys =>
      have h := ih ys
      simp only [cmpParts]
      split_ifs <;> omega

/-- The comparator returns 0 exactly when every component agrees, missing
components read as 0. -/
theorem cmpParts_eq_zero_iff :
    ∀ a b : List Int, cmpParts a b = 0 ↔ ∀ i, a.getD i 0 = b.getD i 0 := by
  intro a
  induction a with
  | nil =>
    intro b
    have h : cmpParts [] b = cmpZero b := rfl
    rw [h, cmpZero_eq_zero_iff]
    constructor
    · intro hall i
      simpa using hall i
    · intro hall i
      simpa using hall i
  | cons x xs ih =>
    intro b
    cases b with
    | nil =>
      simp only [cmpParts]
      split_ifs with h1 h2
      · constructor
        · intro hcontra
          exact absurd hcontra (by decide)
        · intro hall
          have h0 := hall 0
          simp only [List.getD_cons_zero, List.getD_nil] at h0
          omega
      · constructor
        · intro hcontra
          exact absurd hcontra (by decide)
        · intro hall
          have h0 := hall 0
          simp only [List.getD_cons_zero, List.getD_nil] at h0
          omega
      · have hx : x = 0 := by omega
        subst hx
        rw [ih []]
        constructor
        · intro hall i
          cases i with
          | zero => simp
          | succ n => simpa using hall n
        · intro hall i
          have := hall (i + 1)
          simpa using this
    | cons y ys =>
      simp only [cmpParts]
      split_ifs with h1 h2
      · constructor
        · intro hcontra
          exact absurd hcontra (by decide)
        · intro hall
          have h0 := hall 0
          simp only [List.getD_cons_zero] at h0
          omega
      · constructor
        · intro hcontra
          exact absurd hcontra (by decide)
        · intro hall
          have h0 := hall 0
          simp only [List.getD_cons_zero] at h0
          omega
      · have hxy : x = y := by omega
        subst hxy
        rw [ih ys]
        constructor
        · intro hall i
          cases i with
          | zero => simp
          | succ n => simpa using hall n
        · intro hall i
          have := hall (i + 1)
          simpa using this

/-- The comparator returns -1 exactly when the first unequal component
(missing components read as 0) is smaller on the left. -/
theorem cmpParts_eq_negOne_iff :
    ∀ a b : List Int, cmpParts a b = -1 ↔
      ∃ i, a.getD i 0 < b.getD i 0 ∧ ∀ j < i, a.getD j 0 = b.getD j 0 := by
  intro a
  induction a with
  | nil =>
    intro b
    have h : cmpParts [] b = cmpZero b := rfl
    rw [h, cmpZero_eq_negOne_iff]
    constructor
    · rintro ⟨i, hi, hb⟩
      exact ⟨i, by simpa using hi, fun j hj => by simpa using hb j hj⟩
    · rintro ⟨i, hi, hb⟩
      exact ⟨i, by simpa using hi, fun j hj => by simpa using hb j hj⟩
  | cons x xs ih =>
    intro b
    cases b with
    | nil =>
      simp only [cmpParts]
      split_ifs with h1 h2
      · constructor
        · intro _
          exact ⟨0, by simpa using h1, by omega⟩
        · intro _
          rfl
      · constructor
        · intro hcontra
          exact absurd hcontra (by decide)
        · rintro ⟨i, hi, hb⟩
          cases i with
          | zero =>
            simp only [List.getD_cons_zero, List.getD_nil] at hi
            omega
          | succ n =>
            have h0 := hb 0 (Nat.succ_pos n)
            simp only [List.getD_cons_zero, List.getD_nil] at h0
            omega
      · have hx : x = 0 := by omega
        subst hx
        rw [ih []]
        constructor
        · rintro ⟨i, hi, hb⟩
          refine ⟨i + 1, by simpa using hi, ?_⟩
          intro j hj
          cases j with
          | zero => simp
          | succ m => simpa using hb m (by omega)
        · rintro ⟨i, hi, hb⟩
          cases i with
          | zero =>
            simp only [List.getD_cons_zero, List.getD_nil] at hi
            omega
          | succ n =>
            refine ⟨n, by simpa using hi, ?_⟩
            intro j hj
            have := hb (j + 1) (by omega)
            simpa using this
    | cons y ys =>
      simp only [cmpParts]
      split_ifs with h1 h2
      · constructor
        · intro _
          exact ⟨0, by simpa using h1, by omega⟩
        · intro _
          rfl
      · constructor
        · intro hcontra
          exact absurd hcontra (by decide)
        · rintro ⟨i, hi, hb⟩
          cases i with
          | zero =>
            simp only [List.getD_cons_zero] at hi
            omega
          | succ n =>
            have h0 := hb 0 (Nat.succ_pos n)
            simp only [List.getD_cons_zero] at h0
            omega
      · have hxy : x = y := by omega
        subst hxy
        rw [ih ys]
        constructor
        · rintro ⟨i, hi, hb⟩
          refine ⟨i + 1, by simpa using hi, ?_⟩
          intro j hj
          cases j with
          | zero => simp
          | succ m => simpa using hb m (by omega)
        · rintro ⟨i, hi, hb⟩
          cases i with
          | zero =>
            simp only [List.getD_cons_zero] at hi
            omega
          | succ n =>
            refine ⟨n, by simpa using hi, ?_⟩
            intro j hj
            have := hb (j + 1) (by omega)
            simpa using this

/-- The comparator returns 1 exactly when the first unequal component is
larger on the left. -/
theorem cmpParts_eq_one_iff (a b : List Int) :
    cmpParts a b = 1 ↔
      ∃ i, b.getD i 0 < a.getD i 0 ∧ ∀ j < i, a.getD j 0 = b.getD j 0 := by
  have hanti := cmpParts_antisym a b
  have : cmpParts a b = 1 ↔ cmpParts b a = -1 := by omega
  rw [this, cmpParts_eq_negOne_iff]
  constructor
  · rintro ⟨i, hi, hb⟩
    exact ⟨i, hi, fun j hj => (hb j hj).symm⟩
  · rintro ⟨i, hi, hb⟩
    exact ⟨i, hi, fun j hj => (hb j hj).symm⟩

/-- Transitivity of the no-downgrade relation induced by the comparator. -/
theorem cmpParts_trans_nonneg {a b c : List Int}
    (hab : 0 ≤ cmpParts a b) (hbc : 0 ≤ cmpParts b c) : 0 ≤ cmpParts a c := by
  rcases cmpParts_range a b with h1 | h1 | h1
  · omega
  · rcases cmpParts_range b c with h2 | h2 | h2
    · omega
    · have e1 := (cmpParts_eq_zero_iff a b).mp h1
      have e2 := (cmpParts_eq_zero_iff b c).mp h2
      have : cmpParts a c = 0 := by
        rw [cmpParts_eq_zero_iff]
        intro i
        rw [e1 i, e2 i]
      omega
    · have e1 := (cmpParts_eq_zero_iff a b).mp h1
      obtain ⟨i, hi, hb⟩ := (cmpParts_eq_one_iff b c).mp h2
      have : cmpParts a c = 1 := by
        rw [cmpParts_eq_one_iff]
        refine ⟨i, by rw [e1 i]; exact hi, fun j hj => by rw [e1 j]; exact hb j hj⟩
      omega
  · rcases cmpParts_range b c with h2 | h2 | h2
    · omega
    · have e2 := (cmpParts_eq_zero_iff b c).mp h2
      obtain ⟨i, hi, hb⟩ := (cmpParts_eq_one_iff a b).mp h1
      have : cmpParts a c = 1 := by
        rw [cmpParts_eq_one_iff]
        refine ⟨i, by rw [← e2 i]; exact hi, fun j hj => by rw [← e2 j]; exact hb j hj⟩
      omega
    · obtain ⟨i, hi, hbi⟩ := (cmpParts_eq_one_iff a b).mp h1
      obtain ⟨k, hk, hbk⟩ := (cmpParts_eq_one_iff b c).mp h2
      have : cmpParts a c = 1 := by
        rw [cmpParts_eq_one_iff]
        rcases Nat.lt_trichotomy i k with hik | hik | hik
        · refine ⟨i, ?_, ?_⟩
          · have := hbk i hik
            omega
          · intro j hj
            have := hbi j hj
            have := hbk j (by omega)
            omega
        · subst hik
          refine ⟨i, by omega, ?_⟩
          intro j hj
          have := hbi j hj
          have := hbk j hj
          omega
        · refine ⟨k, ?_, ?_⟩
          · have := hbi k hik
            omega
          · intro j hj
            have := hbi j (by omega)
            have := hbk j hj
            omega
      omega

/-! ## Comparator facts at the version-string level -/

theorem npmCompareVersions_refl (a : String) : npmCompareVersions a a = 0 :=
  cmpParts_refl _

theorem npmCompareVersions_antisym (a b : String) :
    npmCompareVersions a b = -npmCompareVersions b a :=
  cmpParts_antisym _ _

theorem npmCompareVersions_trans_nonneg {a b c : String}
    (hab : 0 ≤ npmCompareVersions a b) (hbc : 0 ≤ npmCompareVersions b c) :
    0 ≤ npmCompareVersions a c :=
  cmpParts_trans_nonneg hab hbc

theorem npmCompareVersions_total (a b : String) :
    0 ≤ npmCompareVersions a b ∨ 0 ≤ npmCompareVersions b a := by
  have h1 := cmpParts_range (npmParts a) (npmParts b)
  have h2 := npmCompareVersions_antisym a b
  unfold npmCompareVersions at *
  omega

theorem analyzerCompareVersions_refl (a : String) : analyzerCompareVersions a a = 0 :=
  cmpParts_refl _

theorem analyzerCompareVersions_antisym (a b : String) :
    analyzerCompareVersions a b = -analyzerCompareVersions b a :=
  cmpParts_antisym _ _

/-! ## The descending sort: permutation and head maximality -/

theorem insertDesc_perm (x : String) (l : List String) :
    (insertDesc x l).Perm (x :: l) := by
  induction l with
  | nil => simp [insertDesc]
  | cons y ys ih =>
    simp only [insertDesc]
    split_ifs with h
    · exact List.Perm.refl _
    · exact ((ih.cons y).trans (List.Perm.swap x y ys))

theorem sortVersionsDescending_perm (l : List String) :
    (sortVersionsDescending l).Perm l := by
  induction l with
  | nil => simp [sortVersionsDescending]
  | cons x xs ih =>
    simpa [sortVersionsDescending] using
      (insertDesc_perm x (sortVersionsDescending xs)).trans (ih.cons x)

theorem mem_sortVersionsDescending {l : List String} {v : String} :
    v ∈ sortVersionsDescending l ↔ v ∈ l :=
  (sortVersionsDescending_perm l).mem_iff

theorem sortVersionsDescending_ne_nil {l : List String} (h : l ≠ []) :
    sortVersionsDescending l ≠ [] := by
  intro hnil
  have hp := sortVersionsDescending_perm l
  rw [hnil] at hp
  exact h hp.symm.eq_nil

/-- The head of the sorted list compares at least as high as every element
of the unsorted list. -/
theorem insertDesc_headD_max (x : String) (l : List String) (d : String)
    (hl : ∀ y ∈ l, 0 ≤ npmCompareVersions (l.headD d) y) :
    ∀ y ∈ insertDesc x l, 0 ≤ npmCompareVersions ((insertDesc x l).headD d) y := by
  cases l with
  | nil =>
    intro y hy
    simp only [insertDesc, List.mem_singleton] at hy
    subst hy
    simp [insertDesc, npmCompareVersions_refl]
  | cons z zs =>
    simp only [insertDesc]
    split_ifs with h
    · intro y hy
      simp only [List.headD_cons]
      rcases List.mem_cons.mp hy with rfl | hy2
      · simp [npmCompareVersions_refl]
      · rcases List.mem_cons.mp hy2 with rfl | hy3
        · exact h
        · exact npmCompareVersions_trans_nonneg h
            (by simpa using hl y (List.mem_cons_of_mem z hy3))
    · intro y hy
      simp only [List.headD_cons]
      rcases List.mem_cons.mp hy with rfl | hy2
      · simp [npmCompareVersions_refl]
      · have hy3 : y ∈ x :: zs := (insertDesc_perm x zs).mem_iff.mp hy2
        rcases List.mem_cons.mp hy3 with rfl | hy4
        · rcases npmCompareVersions_total z y with hzy | hyz
          · exact hzy
          · omega
        · exact hl y (List.mem_cons_of_mem z hy4)

theorem sortVersionsDescending_headD_max (l : List String) (d : String) :
    ∀ y ∈ l, 0 ≤ npmCompareVersions ((sortVersionsDescending l).headD d) y := by
  induction l with
  | nil => intro y hy; simp at hy
  | cons x xs ih =>
    intro y hy
    have hstep := insertDesc_headD_max x (sortVersionsDescending xs) d
      (fun z hz => ih z (mem_sortVersionsDescending.mp hz))
    have hy2 : y ∈ insertDesc x (sortVersionsDescending xs) := by
      have : y ∈ x :: sortVersionsDescending xs := by
        rcases List.mem_cons.mp hy with rfl | hmem
        · exact List.mem_cons_self _ _
        · exact List.mem_cons_of_mem x (mem_sortVersionsDescending.mpr hmem)
      exact (insertDesc_perm x (sortVersionsDescending xs)).mem_iff.mpr this
    simpa [sortVersionsDescending] using hstep y (by simpa [sortVersionsDescending] using hy2)

/-- The head of the sorted list is an element of the unsorted list. -/
theorem sortVersionsDescending_headD_mem {l : List String} (h : l ≠ []) (d : String) :
    (sortVersionsDescending l).headD d ∈ l := by
  apply mem_sortVersionsDescending.mp
  cases hs : sortVersionsDescending l with
  | nil => exact absurd hs (sortVersionsDescending_ne_nil h)
  | cons a as => simp [hs]

/-! ## Association-list facts for the manifest rewrite -/

theorem lookupA_nil (k : String) : lookupA [] k = none := rfl

theorem lookupA_cons (p : String × String) (ps : List (String × String)) (k : String) :
    lookupA (p :: ps) k = if p.1 = k then some p.2 else lookupA ps k := by
  simp only [lookupA, List.find?_cons]
  split_ifs with h
  · simp [h]
  · simp [h]

theorem lookupA_eq_none_iff (m : List (String × String)) (k : String) :
    lookupA m k = none ↔ k ∉ m.map (fun p => p.1) := by
  induction m with
  | nil => simp [lookupA_nil]
  | cons p ps ih =>
    rw [lookupA_cons]
    split_ifs with h
    · simp [h]
    · simp [ih, fun hk : k = p.1 => h hk.symm, Ne.symm h]

theorem lookupA_map_overwrite_ne (ps : List (String × String)) (k v n : String)
    (hnk : n ≠ k) :
    lookupA (ps.map (fun p => if p.1 = k then (k, v) else p)) n = lookupA ps n := by
  induction ps with
  | nil => simp [lookupA_nil]
  | cons q qs ih =>
    simp only [List.map_cons]
    rw [lookupA_cons, lookupA_cons]
    by_cases hqk : q.1 = k
    · rw [if_pos hqk]
      have h1 : ¬((k, v).1 = n) := fun h => hnk h.symm
      have h2 : ¬(q.1 = n) := fun h => hnk (hqk ▸ h).symm
      rw [if_neg h1, if_neg h2, ih]
    · rw [if_neg hqk]
      by_cases hqn : q.1 = n
      · simp [hqn]
      · rw [if_neg hqn, if_neg hqn, ih]

theorem lookupA_map_overwrite_eq (m : List (String × String)) (k v : String)
    (hsome : (lookupA m k).isSome) :
    lookupA (m.map (fun p => if p.1 = k then (k, v) else p)) k = some v := by
  induction m with
  | nil => simp [lookupA] at hsome
  | cons p ps ih =>
    simp only [List.map_cons]
    by_cases hpk : p.1 = k
    · rw [if_pos hpk, lookupA_cons, if_pos rfl]
    · rw [if_neg hpk, lookupA_cons, if_neg hpk]
      apply ih
      rw [lookupA_cons, if_neg hpk] at hsome
      exact hsome

theorem lookupA_append_fresh (m : List (String × String)) (k v n : String)
    (hnone : lookupA m k = none) :
    lookupA (m ++ [(k, v)]) n = if n = k then some v else lookupA m n := by
  induction m with
  | nil =>
    simp only [List.nil_append, lookupA_cons, lookupA_nil]
    by_cases h : n = k
    · simp [h]
    · rw [if_neg (fun hk : k = n => h hk.symm), if_neg h]
  | cons p ps ih =>
    rw [lookupA_cons] at hnone
    by_cases hpk : p.1 = k
    · rw [if_pos hpk] at hnone
      exact absurd hnone (by simp)
    · rw [if_neg hpk] at hnone
      simp only [List.cons_append]
      rw [lookupA_cons, lookupA_cons]
      by_cases hpn : p.1 = n
      · by_cases hnk : n = k
        · exact absurd (hpn.trans hnk) hpk
        · simp [hpn, hnk]
      · rw [if_neg hpn, if_neg hpn, ih hnone]

theorem lookupA_objSet (m : List (String × String)) (k v n : String) :
    lookupA (objSet m k v) n = if n = k then some v else lookupA m n := by
  unfold objSet
  by_cases h : (lookupA m k).isSome
  · rw [if_pos h]
    by_cases hnk : n = k
    · rw [if_pos hnk, hnk]
      exact lookupA_map_overwrite_eq m k v h
    · rw [if_neg hnk]
      exact lookupA_map_overwrite_ne m k v n hnk
  · rw [if_neg h]
    apply lookupA_append_fresh
    cases hx : lookupA m k
    · rfl
    · rw [hx] at h
      simp at h

theorem objSet_keys (m : List (String × String)) (k v : String) :
    (objSet m k v).map (fun p => p.1) =
      if (lookupA m k).isSome then m.map (fun p => p.1)
      else m.map (fun p => p.1) ++ [k] := by
  unfold objSet
  split_ifs with h
  · rw [List.map_map]
    apply List.map_congr_left
    intro p _
    by_cases hpk : p.1 = k
    · simp [hpk]
    · simp [hpk]
  · simp

/-! ## Facts about the manifest rewrite fold -/

theorem rewriteGroup_eq_foldl (orig : List (String × String))
    (analyses : List DependencyAnalysis) :
    rewriteGroup orig analyses = analyses.foldl (rewriteStep orig) [] := rfl

theorem rewriteStep_none (orig m : List (String × String)) (a : DependencyAnalysis)
    (h : lookupA orig a.name = none) : rewriteStep orig m a = m := by
  unfold rewriteStep
  rw [h]

theorem rewriteStep_some (orig m : List (String × String)) (a : DependencyAnalysis)
    (c : String) (h : lookupA orig a.name = some c) :
    rewriteStep orig m a =
      if c = "" then m else objSet m a.name ("^" ++ a.recommendedVersion) := by
  unfold rewriteStep
  rw [h]

theorem foldl_rewriteStep_preserve (orig : List (String × String))
    (l : List DependencyAnalysis) (n : String)
    (hn : ∀ a ∈ l, a.name ≠ n) :
    ∀ m, lookupA (l.foldl (rewriteStep orig) m) n = lookupA m n := by
  induction l with
  | nil => intro m; rfl
  | cons b bs ih =>
    intro m
    rw [List.foldl_cons]
    rw [ih (fun a ha => hn a (List.mem_cons_of_mem b ha))]
    cases hb : lookupA orig b.name with
    | none => rw [rewriteStep_none orig m b hb]
    | some c =>
      rw [rewriteStep_some orig m b c hb]
      split_ifs with hc
      · rfl
      · rw [lookupA_objSet, if_neg (fun h => hn b (List.mem_cons_self b bs) h.symm)]

theorem foldl_rewriteStep_lookup (orig : List (String × String))
    (l : List DependencyAnalysis)
    (hnd : (l.map (fun a => a.name)).Nodup)
    (a : DependencyAnalysis) (ha : a ∈ l) (c : String)
    (hc : lookupA orig a.name = some c) (hne : c ≠ "") :
    ∀ m, lookupA (l.foldl (rewriteStep orig) m) a.name =
      some ("^" ++ a.recommendedVersion) := by
  induction l with
  | nil => exact absurd ha (List.not_mem_nil a)
  | cons b bs ih =>
    intro m
    rw [List.foldl_cons]
    rcases List.mem_cons.mp ha with rfl | hmem
    · have hfresh : ∀ x ∈ bs, x.name ≠ a.name := by
        intro x hx h
        have : a.name ∈ bs.map (fun y => y.name) := h ▸ List.mem_map_of_mem _ hx
        exact (List.nodup_cons.mp hnd).1 this
      rw [foldl_rewriteStep_preserve orig bs a.name hfresh]
      rw [rewriteStep_some orig m a c hc, if_neg hne, lookupA_objSet, if_pos rfl]
    · exact ih (List.nodup_cons.mp hnd).2 hmem (rewriteStep orig m b)

/-- Key list of the rewrite fold: the analysed names with a truthy
constraint in the original group, in analysis order, appended to the keys
already present. -/
theorem foldl_rewriteStep_keys (orig : List (String × String))
    (l : List DependencyAnalysis)
    (hnd : (l.map (fun a => a.name)).Nodup) :
    ∀ m, (∀ k ∈ m.map (fun p => p.1), ∀ a ∈ l, a.name ≠ k) →
    (l.foldl (rewriteStep orig) m).map (fun p => p.1) =
      m.map (fun p => p.1) ++
        (l.map (fun a => a.name)).filter
          (fun n => match lookupA orig n with
                    | some c => decide (c ≠ "")
                    | none => false) := by
  induction l with
  | nil => intro m _; simp
  | cons b bs ih =>
    intro m hdisj
    rw [List.foldl_cons]
    have hbs : (bs.map (fun a => a.name)).Nodup := (List.nodup_cons.mp hnd).2
    cases hb : lookupA orig b.name with
    | none =>
      rw [rewriteStep_none orig m b hb]
      rw [ih hbs m (fun k hk a ha => hdisj k hk a (List.mem_cons_of_mem b ha))]
      simp [hb]
    | some c =>
      rw [rewriteStep_some orig m b c hb]
      by_cases hc : c = ""
      · rw [if_pos hc]
        rw [ih hbs m (fun k hk a ha => hdisj k hk a (List.mem_cons_of_mem b ha))]
        simp [hb, hc]
      · rw [if_neg hc]
        have hkeys := objSet_keys m b.name ("^" ++ b.recommendedVersion)
        have hbnotin : lookupA m b.name = none := by
          rw [lookupA_eq_none_iff]
          intro hmem
          exact hdisj b.name hmem b (List.mem_cons_self b bs) rfl
        rw [hbnotin] at hkeys
        simp only [Option.isSome_none, Bool.false_eq_true, if_false] at hkeys
        rw [ih hbs (objSet m b.name ("^" ++ b.recommendedVersion)) ?_]
        · rw [hkeys]
          simp [hb, hc]
        · intro k hk a ha
          rw [hkeys] at hk
          rcases List.mem_append.mp hk with hk1 | hk2
          · exact hdisj k hk1 a (List.mem_cons_of_mem b ha)
          · have hkb : k = b.name := by simpa using hk2
            subst hkb
            intro h
            have : b.name ∈ bs.map (fun y => y.name) := h ▸ List.mem_map_of_mem _ ha
            exact (List.nodup_cons.mp hnd).1 this

/-- The rewrite fold starting from the empty map, specialised. -/
theorem rewriteGroup_lookup (orig : List (String × String))
    (analyses : List DependencyAnalysis)
    (hnd : (analyses.map (fun a => a.name)).Nodup)
    (a : DependencyAnalysis) (ha : a ∈ analyses) (c : String)
    (hc : lookupA orig a.name = some c) (hne : c ≠ "") :
    lookupA (rewriteGroup orig analyses) a.name = some ("^" ++ a.recommendedVersion) :=
  foldl_rewriteStep_lookup orig analyses hnd a ha c hc hne []

theorem rewriteGroup_keys (orig : List (String × String))
    (analyses : List DependencyAnalysis)
    (hnd : (analyses.map (fun a => a.name)).Nodup) :
    (rewriteGroup orig analyses).map (fun p => p.1) =
      (analyses.map (fun a => a.name)).filter
        (fun n => match lookupA orig n with
                  | some c => decide (c ≠ "")
                  | none => false) := by
  rw [rewriteGroup_eq_foldl]
  have h := foldl_rewriteStep_keys orig analyses hnd [] (by simp)
  simpa using h

/-! ## parseInt and Number agree on pure numerals -/

theorem digit_no_ws {c : Char} (h : c.isDigit = true) : jsWhitespace c = false := by
  have h1 : c ≠ ' ' := by
    intro hc
    subst hc
    exact absurd h (by decide)
  have h2 : c ≠ '\t' := by
    intro hc
    subst hc
    exact absurd h (by decide)
  have h3 : c ≠ '\n' := by
    intro hc
    subst hc
    exact absurd h (by decide)
  have h4 : c ≠ '\r' := by
    intro hc
    subst hc
    exact absurd h (by decide)
  have h5 : c ≠ '\x0b' := by
    intro hc
    subst hc
    exact absurd h (by decide)
  have h6 : c ≠ '\x0c' := by
    intro hc
    subst hc
    exact absurd h (by decide)
  simp [jsWhitespace, h1, h2, h3, h4, h5, h6]

theorem digit_ne_plus {c : Char} (h : c.isDigit = true) : c ≠ '+' := by
  intro hc
  subst hc
  exact absurd h (by decide)

theorem digit_ne_minus {c : Char} (h : c.isDigit = true) : c ≠ '-' := by
  intro hc
  subst hc
  exact absurd h (by decide)

/-- On a component that is a pure run of decimal digits (or empty), the
parseInt coercion of the registry comparator and the Number coercion of the
analyzer comparator produce the same value. -/
theorem parseInt_number_agree_digits (cs : List Char) (h : cs.all Char.isDigit = true) :
    (parseIntCore cs).getD 0 = (jsNumberCore cs).getD 0 := by
  cases cs with
  | nil => rfl
  | cons c rest =>
    have hall := List.all_eq_true.mp h
    have hc : c.isDigit = true := hall c (List.mem_cons_self _ _)
    have hdrop : (c :: rest).dropWhile jsWhitespace = c :: rest := by
      rw [List.dropWhile_cons, digit_no_ws hc]
      simp
    have htake : (c :: rest).takeWhile Char.isDigit = c :: rest :=
      List.takeWhile_eq_self_iff.mpr hall
    have htrim : jsTrimList (c :: rest) = c :: rest := by
      unfold jsTrimList
      rw [hdrop]
      have hrev : (c :: rest).reverse.dropWhile jsWhitespace = (c :: rest).reverse := by
        rw [List.dropWhile_eq_self_iff]
        intro hl
        have hmem : (c :: rest).reverse.get ⟨0, hl⟩ ∈ (c :: rest).reverse :=
          List.get_mem _ _ _
        rw [List.mem_reverse] at hmem
        rw [digit_no_ws (hall _ hmem)]
        simp
      rw [hrev, List.reverse_reverse]
    have hplus : c ≠ '+' := digit_ne_plus hc
    have hminus : c ≠ '-' := digit_ne_minus hc
    simp [parseIntCore, jsNumberCore, leadingDigits, hdrop, htrim, htake,
      hplus, hminus, h]

/-! # The claims -/

/-- C10 (confirmed): comparator antisymmetry and reflexivity, for the
comparators of both DependencyAnalyzerService and NpmRegistryService: for
all version strings, compare(a, b) equals the negation of compare(b, a),
and compare(a, a) is 0. -/
theorem c10_comparator_antisym_refl :
    (∀ a b : String, npmCompareVersions a b = -npmCompareVersions b a) ∧
    (∀ a : String, npmCompareVersions a a = 0) ∧
    (∀ a b : String, analyzerCompareVersions a b = -analyzerCompareVersions b a) ∧
    (∀ a : String, analyzerCompareVersions a a = 0) :=
  ⟨npmCompareVersions_antisym, npmCompareVersions_refl,
   analyzerCompareVersions_antisym, analyzerCompareVersions_refl⟩

/-- C6 counterexample: the claim's normalization ("non-numeric components
treated as 0") decides compare("1.2-next", "1.1") as -1, and the analyzer
comparator agrees, but the registry comparator reads the component
"2-next" as its leading digit run 2 (parseInt) and returns 1. -/
theorem c6_counterexample_parseint_prefix :
    specCompareVersions "1.2-next" "1.1" = -1 ∧
    analyzerCompareVersions "1.2-next" "1.1" = -1 ∧
    npmCompareVersions "1.2-next" "1.1" = 1 := by decide

/-- C6 (corrected): both comparators split on dots, compare componentwise
with missing components as 0, first unequal component decides, result in
-1, 0 or 1, and the claimed concrete examples hold for both; but the two
services normalize components differently (Number versus parseInt), so a
single "non-numeric is 0" description only fits the analyzer comparator,
as the "1.2-next" example separates. -/
theorem c6_comparator_description :
    (∀ a b : String,
        npmCompareVersions a b = -1 ∨ npmCompareVersions a b = 0 ∨
          npmCompareVersions a b = 1) ∧
    (∀ a b : String,
        analyzerCompareVersions a b = -1 ∨ analyzerCompareVersions a b = 0 ∨
          analyzerCompareVersions a b = 1) ∧
    (∀ a b : String, npmCompareVersions a b = 0 ↔
        ∀ i, (npmParts a).getD i 0 = (npmParts b).getD i 0) ∧
    (∀ a b : String, npmCompareVersions a b = -1 ↔
        ∃ i, (npmParts a).getD i 0 < (npmParts b).getD i 0 ∧
          ∀ j < i, (npmParts a).getD j 0 = (npmParts b).getD j 0) ∧
    (∀ a b : String, analyzerCompareVersions a b = 0 ↔
        ∀ i, (analyzerParts a).getD i 0 = (analyzerParts b).getD i 0) ∧
    npmCompareVersions "17.0.0" "9.0.0" = 1 ∧ npmCompareVersions "1.2" "1.2.0" = 0 ∧
    analyzerCompareVersions "17.0.0" "9.0.0" = 1 ∧
    analyzerCompareVersions "1.2" "1.2.0" = 0 ∧
    analyzerCompareVersions "1.2-next" "1.1" = specCompareVersions "1.2-next" "1.1" ∧
    npmCompareVersions "1.2-next" "1.1" ≠ specCompareVersions "1.2-next" "1.1" := by
  refine ⟨fun a b => cmpParts_range _ _, fun a b => cmpParts_range _ _,
    fun a b => cmpParts_eq_zero_iff _ _, fun a b => cmpParts_eq_negOne_iff _ _,
    fun a b => cmpParts_eq_zero_iff _ _,
    by decide, by decide, by decide, by decide, by decide, by decide⟩

/-- C7 counterexample: the two comparators disagree at ("1.2-next", "1.1"):
parseInt reads the component "2-next" as 2 while Number reads it as NaN,
coerced to 0. -/
theorem c7_counterexample_comparators_differ :
    npmCompareVersions "1.2-next" "1.1" = 1 ∧
    analyzerCompareVersions "1.2-next" "1.1" = -1 ∧
    npmCompareVersions "1.2-next" "1.1" ≠ analyzerCompareVersions "1.2-next" "1.1" := by
  decide

/-- C7 (corrected): the two comparators agree on every pair of version
strings all of whose dot-components are pure (possibly empty) runs of
decimal digits — the only inputs on which parseInt and Number coincide. -/
theorem c7_comparators_agree_on_numerals :
    ∀ a b : String,
      (∀ comp ∈ splitDots a.toList, comp.all Char.isDigit = true) →
      (∀ comp ∈ splitDots b.toList, comp.all Char.isDigit = true) →
      npmCompareVersions a b = analyzerCompareVersions a b := by
  intro a b ha hb
  unfold npmCompareVersions analyzerCompareVersions npmParts analyzerParts
  rw [List.map_congr_left (fun cs hcs => parseInt_number_agree_digits cs (ha cs hcs)),
    List.map_congr_left (fun cs hcs => parseInt_number_agree_digits cs (hb cs hcs))]

/-- Witness for C7: the comparators agree at the numeral pair
("1.2", "1.2.0"). -/
theorem c7_agreement_witness :
    npmCompareVersions "1.2" "1.2.0" = analyzerCompareVersions "1.2" "1.2.0" :=
  c7_comparators_agree_on_numerals "1.2" "1.2.0" (by decide) (by decide)

/-- C5 (confirmed): the peer-dependency evaluator splits the constraint on
two-pipe separators into trimmed alternatives and accepts exactly when
some alternative accepts under the described rules; target major 18
satisfies the caret pair constraint and 16 does not. -/
theorem c5_peer_constraint_satisfaction :
    (∀ (t : Int) (c : String),
        versionSatisfiesPeerDep t c = true ↔
          ∃ p ∈ (splitPipes c.toList).map jsTrimList, patternAcceptsSpec t p = true) ∧
    versionSatisfiesPeerDep 18 "^17.0.0 || ^18.0.0" = true ∧
    versionSatisfiesPeerDep 16 "^17.0.0 || ^18.0.0" = false := by
  refine ⟨?_, by decide, by decide⟩
  intro t c
  unfold versionSatisfiesPeerDep
  rw [List.any_eq_true]
  refine exists_congr fun p => and_congr_right fun _ => ?_
  unfold patternAcceptsSpec
  cases firstDigitRun p with
  | none => simp
  | some m =>
    dsimp only []
    by_cases hge : ['>', '='] <:+: p
    · rw [if_pos hge]
      simp only [decide_eq_true_eq]
      constructor
      · intro h
        exact Or.inl ⟨hge, h⟩
      · rintro (⟨_, h⟩ | ⟨_, h⟩)
        · exact h
        · omega
    · rw [if_neg hge]
      by_cases hcar : '^' ∈ p
      · rw [if_pos hcar]
        simp only [decide_eq_true_eq]
        constructor
        · intro h
          exact Or.inr ⟨Or.inl hcar, h⟩
        · rintro (⟨hge2, _⟩ | ⟨_, h⟩)
          · exact absurd hge2 hge
          · exact h
      · rw [if_neg hcar]
        by_cases htil : '~' ∈ p
        · rw [if_pos htil]
          simp only [decide_eq_true_eq]
          constructor
          · intro h
            exact Or.inr ⟨Or.inr htil, h⟩
          · rintro (⟨hge2, _⟩ | ⟨_, h⟩)
            · exact absurd hge2 hge
            · exact h
        · rw [if_neg htil]
          simp only [Bool.false_eq_true, false_iff, decide_eq_true_eq]
          rintro (⟨hge2, _⟩ | ⟨hor, _⟩)
          · exact absurd hge2 hge
          · rcases hor with h | h
            · exact absurd h hcar
            · exact absurd h htil

/-- C8 (confirmed): when the registry lookup yields absent metadata, the
analysis entry echoes the cleaned current version as the recommendation
with no update flagged; and the batch maps every dependency through its
own independent resolution (the embedding is total, so no failure can
surface to the caller), leaving the other dependencies untouched. -/
theorem c8_registry_unavailable :
    (∀ (name cur : String) (t : Int),
        (analyzeDependency name cur t none).recommendedVersion = cleanVersion cur ∧
        (analyzeDependency name cur t none).currentVersion = cleanVersion cur ∧
        (analyzeDependency name cur t none).needsUpdate = false) ∧
    (∀ (pj : PackageJson) (t : Int) (registry : String → Option NpmPackageInfo),
        (analyze pj t registry).analysis =
          (objSpread (pj.dependencies.getD []) (pj.devDependencies.getD [])).map
            (fun p => analyzeDependency p.1 p.2 t (registry p.1))) := by
  constructor
  · intro name cur t
    refine ⟨rfl, rfl, ?_⟩
    have h0 := analyzerCompareVersions_refl (cleanVersion cur)
    simp only [analyzeDependency, getBestVersion]
    simp [h0]
  · intro pj t registry
    simp only [analyze]
    split_ifs with h
    · rw [List.length_eq_zero] at h
      rw [h]
      rfl
    · rfl

/-- C9 counterexample: a manifest whose only dependency declares the empty
string is analyzed (with recommendation equal to its cleaned current
version, the empty string), yet the updated manifest keeps the raw empty
constraint instead of the claimed caret rewrite. -/
theorem c9_counterexample_falsy_constraint :
    (analyze origC9 17 (fun _ => none)).analysis.map
        (fun a => (a.name, a.recommendedVersion)) = [("b", "")] ∧
    (analyze origC9 17 (fun _ => none)).updated.dependencies = some [("b", "")] ∧
    ("" : String) ≠ "^" ++ "" := by decide

/-- C9 (corrected): buildResult copies the original manifest, the entry
list, and every manifest field other than the two dependency groups
through unchanged; in each group, every analyzed dependency whose original
constraint is present and non-empty (the JS truthiness test) is rewritten
to the caret of its recommended version; a group whose rewrite is empty is
passed through as it was; and the rewritten group lists exactly the
analyzed names with truthy constraints, in analysis order. -/
theorem c9_manifest_rewrite_frame :
    (∀ (original : PackageJson) (analyses : List DependencyAnalysis),
        (buildResult original analyses).original = original ∧
        (buildResult original analyses).analysis = analyses ∧
        (buildResult original analyses).updated.name = original.name ∧
        (buildResult original analyses).updated.version = original.version ∧
        (buildResult original analyses).updated.extra = original.extra) ∧
    (∀ (original : PackageJson) (analyses : List DependencyAnalysis),
        (analyses.map (fun a => a.name)).Nodup →
        ∀ a ∈ analyses, ∀ c,
          lookupA (original.dependencies.getD []) a.name = some c → c ≠ "" →
          lookupA ((buildResult original analyses).updated.dependencies.getD []) a.name
            = some ("^" ++ a.recommendedVersion)) ∧
    (∀ (original : PackageJson) (analyses : List DependencyAnalysis),
        (analyses.map (fun a => a.name)).Nodup →
        ∀ a ∈ analyses, ∀ c,
          lookupA (original.devDependencies.getD []) a.name = some c → c ≠ "" →
          lookupA ((buildResult original analyses).updated.devDependencies.getD []) a.name
            = some ("^" ++ a.recommendedVersion)) ∧
    (∀ (original : PackageJson) (analyses : List DependencyAnalysis),
        rewriteGroup (original.dependencies.getD []) analyses = [] →
          (buildResult original analyses).updated.dependencies = original.dependencies) ∧
    (∀ (original : PackageJson) (analyses : List DependencyAnalysis),
        (analyses.map (fun a => a.name)).Nodup →
        (rewriteGroup (original.dependencies.getD []) analyses).map (fun p => p.1) =
          (analyses.map (fun a => a.name)).filter
            (fun n => match lookupA (original.dependencies.getD []) n with
                      | some c => decide (c ≠ "")
                      | none => false)) := by
  refine ⟨fun original analyses => ⟨rfl, rfl, rfl, rfl, rfl⟩, ?_, ?_, ?_, ?_⟩
  · intro original analyses hnd a ha c hc hne
    have hlk := rewriteGroup_lookup (original.dependencies.getD []) analyses hnd a ha c hc hne
    have hgne : rewriteGroup (original.dependencies.getD []) analyses ≠ [] := by
      intro hnil
      rw [hnil] at hlk
      exact absurd hlk (by simp [lookupA_nil])
    simp only [buildResult]
    rw [if_pos (List.length_pos.mpr hgne)]
    simpa using hlk
  · intro original analyses hnd a ha c hc hne
    have hlk := rewriteGroup_lookup (original.devDependencies.getD []) analyses hnd a ha c hc hne
    have hgne : rewriteGroup (original.devDependencies.getD []) analyses ≠ [] := by
      intro hnil
      rw [hnil] at hlk
      exact absurd hlk (by simp [lookupA_nil])
    simp only [buildResult]
    rw [if_pos (List.length_pos.mpr hgne)]
    simpa using hlk
  · intro original analyses hempty
    simp only [buildResult]
    rw [hempty]
    simp
  · intro original analyses hnd
    exact rewriteGroup_keys _ analyses hnd

/-- C1 counterexample: a framework-core dependency currently on 18.0.0 with
target major 17, whose registry offers 18.0.0 itself, is resolved to
17.1.0 — version-ordered strictly below the current version even though
the registry offers a version at least the current one — and the entry
even carries the "newer than recommended" note the spec calls
unreachable. -/
theorem c1_counterexample_framework_downgrade :
    (analyzeDependency "@angular/core" "^18.0.0" 17 (some infoC1)).recommendedVersion
      = "17.1.0" ∧
    (analyzeDependency "@angular/core" "^18.0.0" 17 (some infoC1)).currentVersion
      = "18.0.0" ∧
    npmCompareVersions "17.1.0" "18.0.0" = -1 ∧
    analyzerCompareVersions "17.1.0" "18.0.0" = -1 ∧
    "18.0.0" ∈ infoC1.versions.map (fun p => p.1) ∧
    0 ≤ npmCompareVersions "18.0.0" "18.0.0" ∧
    (analyzeDependency "@angular/core" "^18.0.0" 17 (some infoC1)).notes
      = "Current version is newer" := by decide

/-- The final guard of the ecosystem fallback: whichever fallback version
is chosen, the guarded result never compares below the cleaned current
version. -/
theorem downgrade_guard_nonneg (latest clean r : String)
    (h : (if 0 ≤ npmCompareVersions latest clean then latest else clean) = r) :
    0 ≤ npmCompareVersions r clean := by
  split at h
  · rename_i hle
    rw [h] at hle
    exact hle
  · rw [← h]
    simp [npmCompareVersions_refl]

/-- C1 (corrected): the no-downgrade invariant holds for every dependency
the resolver treats as ecosystem (non framework-core): whatever the
registry metadata, target major and raw current version, the resolved
version compares greater-or-equal to the cleaned current version (with the
current version itself echoed back in the fallback). Framework-core
packages are exempt: they follow the target major even below current. -/
theorem c1_ecosystem_no_downgrade :
    ∀ (name : String) (info : NpmPackageInfo) (t : Int) (cur r : String),
      isAngularCoreName name = false →
      getBestVersion name (some info) t cur = some r →
      0 ≤ npmCompareVersions r (cleanVersion cur) := by
  intro name info t cur r hcore hres
  simp only [getBestVersion, hcore, Bool.false_eq_true, if_false] at hres
  split at hres
  · rename_i v heq
    injection hres with hvr
    subst hvr
    split at heq
    · have hp := List.find?_some heq
      exact of_decide_eq_true hp
    · exact absurd heq (by simp)
  · injection hres with hvr
    exact downgrade_guard_nonneg _ _ r hvr

/-- Witness for C1 as amended: a concrete ecosystem dependency resolves to
2.0.0, not below its current 1.0.0. -/
theorem c1_no_downgrade_witness :
    0 ≤ npmCompareVersions "2.0.0" (cleanVersion "1.0.0") :=
  c1_ecosystem_no_downgrade "left-pad" infoEco 17 "1.0.0" "2.0.0"
    (by decide) (by decide)

/-- C2 (confirmed): the framework-core resolver works from the pool of
target-major versions, narrowed to its stable members exactly when the
current version is stable and stable members exist; when the pool is
non-empty it returns a member of the pool that compares at least as high
as every pool member; when the pool is empty it keeps the current version
exactly when the current major exceeds the target, and synthesizes
target.0.0 otherwise; and the claimed concrete example resolves to
17.1.0. -/
theorem c2_framework_core_resolution :
    (∀ (versions : List String) (t : Int) (cur v : String),
        v ∈ angularTargetPool versions t cur ↔
          (v ∈ versions ∧ majorOf v = some t ∧
            (isPreReleaseVersion cur = true ∨ isStable v = true ∨
              ∀ w ∈ versions, majorOf w = some t → isStable w = false))) ∧
    (∀ (versions : List String) (t : Int) (cur : String),
        angularTargetPool versions t cur ≠ [] →
          findBestAngularVersion versions t cur ∈ angularTargetPool versions t cur ∧
          ∀ v ∈ angularTargetPool versions t cur,
            0 ≤ npmCompareVersions (findBestAngularVersion versions t cur) v) ∧
    (∀ (versions : List String) (t : Int) (cur : String),
        angularTargetPool versions t cur = [] →
          findBestAngularVersion versions t cur =
            if (match majorOf cur with
                | some m => decide (t < m)
                | none => false) = true
            then cur else toString t ++ ".0.0") ∧
    findBestAngularVersion ["16.2.0", "17.0.0", "17.1.0", "18.0.0-next.0"] 17 "16.2.0"
      = "17.1.0" := by
  refine ⟨?_, ?_, ?_, by decide⟩
  · intro versions t cur v
    simp only [angularTargetPool]
    by_cases hpre : isPreReleaseVersion cur = true
    · rw [if_neg (by simp [hpre])]
      simp only [List.mem_filter, decide_eq_true_eq]
      constructor
      · rintro ⟨hmem, hmaj⟩
        exact ⟨hmem, hmaj, Or.inl hpre⟩
      · rintro ⟨hmem, hmaj, _⟩
        exact ⟨hmem, hmaj⟩
    · have hpre2 : isPreReleaseVersion cur = false := by
        cases h : isPreReleaseVersion cur
        · rfl
        · exact absurd h hpre
      rw [if_pos (by simp [hpre2])]
      by_cases hex :
          0 < ((versions.filter (fun w => decide (majorOf w = some t))).filter isStable).length
      · rw [if_pos hex]
        have hnnil : ((versions.filter (fun w => decide (majorOf w = some t))).filter
            isStable) ≠ [] := by
          intro hnil
          rw [hnil] at hex
          simp at hex
        obtain ⟨w, hw⟩ := List.exists_mem_of_ne_nil _ hnnil
        have hw2 := List.mem_filter.mp hw
        have hw3 := List.mem_filter.mp hw2.1
        simp only [List.mem_filter, decide_eq_true_eq]
        constructor
        · rintro ⟨⟨hmem, hmaj⟩, hstab⟩
          exact ⟨hmem, hmaj, Or.inr (Or.inl hstab)⟩
        · rintro ⟨hmem, hmaj, hdis⟩
          rcases hdis with h | h | h
          · exact absurd h hpre
          · exact ⟨⟨hmem, hmaj⟩, h⟩
          · have := h w hw3.1 (of_decide_eq_true hw3.2)
            rw [hw2.2] at this
            exact absurd this (by simp)
      · rw [if_neg hex]
        have hnil : ((versions.filter (fun w => decide (majorOf w = some t))).filter
            isStable) = [] := by
          cases h : ((versions.filter (fun w => decide (majorOf w = some t))).filter
              isStable) with
          | nil => rfl
          | cons x xs => rw [h] at hex; simp at hex
        have hall := List.filter_eq_nil_iff.mp hnil
        simp only [List.mem_filter, decide_eq_true_eq]
        constructor
        · rintro ⟨hmem, hmaj⟩
          refine ⟨hmem, hmaj, Or.inr (Or.inr ?_)⟩
          intro w hwmem hwmaj
          have := hall w (List.mem_filter.mpr ⟨hwmem, by simp [hwmaj]⟩)
          simpa using this
        · rintro ⟨hmem, hmaj, _⟩
          exact ⟨hmem, hmaj⟩
  · intro versions t cur hne
    have hlen : 0 < (angularTargetPool versions t cur).length := List.length_pos.mpr hne
    constructor
    · simp only [findBestAngularVersion]
      rw [if_pos hlen]
      exact sortVersionsDescending_headD_mem hne ""
    · intro v hv
      simp only [findBestAngularVersion]
      rw [if_pos hlen]
      exact sortVersionsDescending_headD_max _ "" v hv
  · intro versions t cur hempty
    simp only [findBestAngularVersion]
    rw [hempty]
    simp

/-- C3 counterexample: a version that declares a peer dependency on the
framework core with the empty constraint string is admitted as a candidate
by the code (JS falsiness), although the PeerDependencyEvaluator does not
confirm the empty constraint, so the claimed candidate set excludes it. -/
theorem c3_counterexample_empty_peer :
    "1.0.0" ∈ findVersionsCompatibleWithAngular infoC3 17 false ∧
    c3SpecCandidate infoC3 17 false "1.0.0" = false ∧
    lookupA [("@angular/core", "")] "@angular/core" = some "" ∧
    versionSatisfiesPeerDep 17 "" = false := by decide

/-- C3 (corrected): the candidate set contains exactly the versions that
pass the pre-release gate (pre-releases only when the current version is
pre-release) and either declare no peer dependency on the framework core,
declare the empty constraint (JS falsiness admits it), or declare one the
evaluator confirms; and whenever the descending-sorted candidate list has
a first element comparing greater-or-equal to the cleaned current version,
the resolver returns exactly that element. -/
theorem c3_ecosystem_candidates :
    (∀ (info : NpmPackageInfo) (t : Int) (incl : Bool) (v : String),
        v ∈ findVersionsCompatibleWithAngular info t incl ↔
          ∃ p ∈ info.versions, p.1 = v ∧ (incl = true ∨ isPreReleaseVersion v = false) ∧
            (match p.2.peerDependencies with
             | none => True
             | some peers =>
               match lookupA peers "@angular/core" with
               | none => True
               | some c => c = "" ∨ versionSatisfiesPeerDep t c = true)) ∧
    (∀ (name : String) (info : NpmPackageInfo) (t : Int) (cur r : String),
        isAngularCoreName name = false →
        (sortVersionsDescending
            (findVersionsCompatibleWithAngular info t
              (isPreReleaseVersion (cleanVersion cur)))).find?
            (fun v => decide (0 ≤ npmCompareVersions v (cleanVersion cur))) = some r →
        getBestVersion name (some info) t cur = some r ∧
        r ∈ findVersionsCompatibleWithAngular info t
          (isPreReleaseVersion (cleanVersion cur)) ∧
        0 ≤ npmCompareVersions r (cleanVersion cur)) := by
  constructor
  · intro info t incl v
    unfold findVersionsCompatibleWithAngular
    rw [List.mem_filterMap]
    refine exists_congr fun p => and_congr_right fun _ => ?_
    by_cases hskip : (!incl && isPreReleaseVersion p.1) = true
    · rw [if_pos hskip]
      simp only [Bool.and_eq_true, Bool.not_eq_true'] at hskip
      constructor
      · intro h
        exact absurd h (by simp)
      · rintro ⟨rfl, hguard, _⟩
        rcases hguard with h | h
        · rw [h] at hskip
          exact absurd hskip.1 (by simp)
        · rw [h] at hskip
          exact absurd hskip.2 (by simp)
    · rw [if_neg hskip]
      have hguard : incl = true ∨ isPreReleaseVersion p.1 = false := by
        cases incl with
        | true => exact Or.inl rfl
        | false =>
          right
          cases hp : isPreReleaseVersion p.1
          · rfl
          · exact absurd (show (!false && isPreReleaseVersion p.1) = true by
              rw [hp]
              decide) hskip
      cases hpd : p.2.peerDependencies with
      | none =>
        dsimp only []
        simp only [Option.some.injEq]
        constructor
        · rintro rfl
          exact ⟨rfl, hguard, trivial⟩
        · rintro ⟨rfl, _, _⟩
          rfl
      | some peers =>
        dsimp only []
        cases hlk : lookupA peers "@angular/core" with
        | none =>
          dsimp only []
          simp only [Option.some.injEq]
          constructor
          · rintro rfl
            exact ⟨rfl, hguard, trivial⟩
          · rintro ⟨rfl, _, _⟩
            rfl
        | some cstr =>
          dsimp only []
          by_cases hce : cstr = ""
          · rw [if_pos hce]
            simp only [Option.some.injEq]
            constructor
            · rintro rfl
              exact ⟨rfl, hguard, Or.inl hce⟩
            · rintro ⟨rfl, _, _⟩
              rfl
          · rw [if_neg hce]
            by_cases heval : versionSatisfiesPeerDep t cstr = true
            · rw [if_pos heval]
              simp only [Option.some.injEq]
              constructor
              · rintro rfl
                exact ⟨rfl, hguard, Or.inr heval⟩
              · rintro ⟨rfl, _, _⟩
                rfl
            · rw [if_neg heval]
              constructor
              · intro h
                exact absurd h (by simp)
              · rintro ⟨rfl, _, hor⟩
                rcases hor with h | h
                · exact absurd h hce
                · exact absurd h heval
  · intro name info t cur r hcore hfind
    have hmem : r ∈ findVersionsCompatibleWithAngular info t
        (isPreReleaseVersion (cleanVersion cur)) :=
      mem_sortVersionsDescending.mp (List.mem_of_find?_eq_some hfind)
    have hcmp : 0 ≤ npmCompareVersions r (cleanVersion cur) := by
      have hp := List.find?_some hfind
      exact of_decide_eq_true hp
    refine ⟨?_, hmem, hcmp⟩
    simp only [getBestVersion, hcore, Bool.false_eq_true, if_false]
    have hlen : (findVersionsCompatibleWithAngular info t
        (isPreReleaseVersion (cleanVersion cur))).length > 0 :=
      List.length_pos.mpr (fun hnil => by rw [hnil] at hmem; simp at hmem)
    rw [if_pos hlen, hfind]

/-- C4 (confirmed): for an ecosystem package with no candidate comparing
greater-or-equal to the cleaned current version, the resolver falls back
to the registry latest dist-tag; when that tag is pre-release while the
current version is stable and stable versions exist, it instead takes a
stable version at least as high as every stable available version; and in
either case, a fallback still below current is replaced by the current
version itself. -/
theorem c4_ecosystem_fallback :
    ∀ (name : String) (info : NpmPackageInfo) (t : Int) (cur tag : String),
      isAngularCoreName name = false →
      info.distTagsLatest = some tag →
      tag ≠ "" →
      (∀ v ∈ findVersionsCompatibleWithAngular info t
          (isPreReleaseVersion (cleanVersion cur)),
        npmCompareVersions v (cleanVersion cur) < 0) →
      ((isPreReleaseVersion tag = false ∨
          isPreReleaseVersion (cleanVersion cur) = true) →
        getBestVersion name (some info) t cur =
          some (if 0 ≤ npmCompareVersions tag (cleanVersion cur) then tag
                else cleanVersion cur)) ∧
      (isPreReleaseVersion (cleanVersion cur) = false →
        isPreReleaseVersion tag = true →
        (∃ s ∈ info.versions.map (fun p => p.1), isStable s = true) →
        ∃ s, isStable s = true ∧ s ∈ info.versions.map (fun p => p.1) ∧
          (∀ w ∈ info.versions.map (fun p => p.1), isStable w = true →
            0 ≤ npmCompareVersions s w) ∧
          getBestVersion name (some info) t cur =
            some (if 0 ≤ npmCompareVersions s (cleanVersion cur) then s
                  else cleanVersion cur)) := by
  intro name info t cur tag hcore hdist htagne hall
  have hscrut : (if (findVersionsCompatibleWithAngular info t
        (isPreReleaseVersion (cleanVersion cur))).length > 0 then
      (sortVersionsDescending (findVersionsCompatibleWithAngular info t
        (isPreReleaseVersion (cleanVersion cur)))).find?
        (fun v => decide (0 ≤ npmCompareVersions v (cleanVersion cur)))
    else none) = none := by
    split_ifs with hlen
    · rw [List.find?_eq_none]
      intro x hx
      have hxc := mem_sortVersionsDescending.mp hx
      have hlt := hall x hxc
      simp only [decide_eq_true_eq]
      omega
    · rfl
  have hlatest0 : (match info.distTagsLatest with
      | some s => if s = "" then cleanVersion cur else s
      | none => cleanVersion cur) = tag := by
    rw [hdist]
    dsimp only []
    rw [if_neg htagne]
  constructor
  · intro hb1
    have hcond : (!isPreReleaseVersion (cleanVersion cur)
        && isPreReleaseVersion tag) = false := by
      rcases hb1 with h | h
      · simp [h]
      · simp [h]
    simp only [getBestVersion, hcore, Bool.false_eq_true, if_false, hscrut, hlatest0,
      hcond, if_false]
  · intro hstab hpre hex
    have hcond : (!isPreReleaseVersion (cleanVersion cur)
        && isPreReleaseVersion tag) = true := by
      simp [hstab, hpre]
    obtain ⟨s0, hs0mem, hs0stab⟩ := hex
    have hnnil : (info.versions.map (fun p => p.1)).filter isStable ≠ [] := by
      intro hnil
      have : s0 ∈ ((info.versions.map (fun p => p.1)).filter isStable) :=
        List.mem_filter.mpr ⟨hs0mem, hs0stab⟩
      rw [hnil] at this
      simp at this
    have hlen : ((info.versions.map (fun p => p.1)).filter isStable).length > 0 :=
      List.length_pos.mpr hnnil
    refine ⟨(sortVersionsDescending
        ((info.versions.map (fun p => p.1)).filter isStable)).headD tag, ?_, ?_, ?_, ?_⟩
    · exact (List.mem_filter.mp (sortVersionsDescending_headD_mem hnnil tag)).2
    · exact (List.mem_filter.mp (sortVersionsDescending_headD_mem hnnil tag)).1
    · intro w hwmem hwstab
      exact sortVersionsDescending_headD_max _ tag w (List.mem_filter.mpr ⟨hwmem, hwstab⟩)
    · simp only [getBestVersion, hcore, Bool.false_eq_true, if_false, hscrut, hlatest0,
        hcond, if_true, if_pos hlen]

/-- Witness for C4: a package whose only version fails the peer check and
whose latest tag is a pre-release while the current version is stable
falls back to the highest stable version, 2.0.0. -/
theorem c4_fallback_witness :
    ∃ s, isStable s = true ∧ s ∈ infoC4.versions.map (fun p => p.1) ∧
      (∀ w ∈ infoC4.versions.map (fun p => p.1), isStable w = true →
        0 ≤ npmCompareVersions s w) ∧
      getBestVersion "some-lib" (some infoC4) 17 "1.0.0" =
        some (if 0 ≤ npmCompareVersions s (cleanVersion "1.0.0") then s
              else cleanVersion "1.0.0") :=
  (c4_ecosystem_fallback "some-lib" infoC4 17 "1.0.0" "3.0.0-beta.1"
    (by decide) rfl (by decide) (by decide)).2 (by decide) (by decide)
    ⟨"2.0.0", by decide, by decide⟩

end DepAnalyzer
